import Mathlib

/-!
Verification of the inventory consistency engine of the
DebkantaDey/inventory-management-system repository.

The repository ships a React presentation layer (`src/src/pages/Dashboard.tsx`,
products/login pages) together with an architecture document
(`src/unnamed/part_000`) that designs the backend inventory engine: a
tenant-scoped, append-only stock ledger with atomic conditional decrement
(`updateOne` with the condition `stock >= qty`), an order state machine
(Pending / PartiallyFulfilled / Completed / Cancelled), a purchase-order
state machine (Draft / Sent / Confirmed / Received) with partial receipt,
and a derived low-stock signal.

The backend implementation itself is not among the source files, so the
engine below is modelled from the specification's words (each such
definition says so in its doc comment); the dashboard computations
(`smartLowStock`, `MiniStockChart`) are embedded directly from
`src/src/pages/Dashboard.tsx`.

All states are tenant-scoped: the spec threads a mandatory `tenantId`
through every operation and forbids any cross-tenant reference, so a single
`EngineState` below represents the slice of the store belonging to one
tenant.
-/

namespace Inventory

abbrev SKU := String

/-- Movement types of the stock ledger, from the architecture document:
`type: 'purchase' | 'sale' | 'return' | 'adjustment'` (`return` is a Lean
keyword, so it is rendered `ret`). -/
inductive MovementType where
  | purchase
  | sale
  | ret
  | adjustment
deriving DecidableEq, Repr

/-- A ledger entry, from the architecture document's `StockMovement`
schema: `{ tenantId, sku, type, quantity, timestamp, referenceId }`.
`quantity` is the unsigned magnitude; the sign is implied by the type
(spec section 3). The tenant id is implicit (the whole state is one
tenant's slice) and the timestamp is irrelevant to every claim. -/
structure StockMovement where
  sku : SKU
  mvType : MovementType
  quantity : Nat
  referenceId : Nat
deriving DecidableEq, Repr

/-- The signed delta a movement applies to `Variant.stock`:
`sale` decrements, every other type increments (spec section 3). -/
def mvDelta (m : StockMovement) : Int :=
  match m.mvType with
  | .sale => -(m.quantity : Int)
  | _ => (m.quantity : Int)

/-- One line of a customer order: `{sku, quantity}` (spec section 3). -/
structure OrderLine where
  sku : SKU
  quantity : Nat
deriving DecidableEq, Repr

/-- Order statuses (spec section 3). -/
inductive OrderStatus where
  | Pending
  | PartiallyFulfilled
  | Completed
  | Cancelled
deriving DecidableEq, Repr

/-- A customer order. `reserved` holds the lines whose conditional sale
movement succeeded, `unfulfilled` the failed lines (quantity owed =
requested, since a failed line reserves nothing). -/
structure Order where
  id : Nat
  lines : List OrderLine
  reserved : List OrderLine
  unfulfilled : List OrderLine
  status : OrderStatus
deriving DecidableEq, Repr

/-- Purchase-order statuses (spec section 3). -/
inductive POStatus where
  | Draft
  | Sent
  | Confirmed
  | Received
deriving DecidableEq, Repr

/-- A purchase-order line item, from the architecture document:
`{ sku, orderedQty, receivedQty, unitPrice }`, plus the nullable
`receivedUnitPrice` of spec section 3. Prices are in minor units. -/
structure PurchaseOrderItem where
  sku : SKU
  orderedQty : Nat
  receivedQty : Nat
  unitPrice : Nat
  receivedUnitPrice : Option Nat
deriving DecidableEq, Repr

/-- A supplier purchase order (spec section 3). -/
structure PurchaseOrder where
  id : Nat
  status : POStatus
  items : List PurchaseOrderItem
deriving DecidableEq, Repr

/-- One receipt of `receiveItems` (spec section 4.3). -/
structure Receipt where
  sku : SKU
  qty : Nat
  unitPrice : Nat
deriving DecidableEq, Repr

/-- The error kinds of spec section 7. -/
inductive Err where
  | InsufficientStock
  | NoStockAvailable
  | OverReceipt
  | InvalidTransition
  | CrossTenantViolation
deriving DecidableEq, Repr

/-- The tenant-scoped state: the authoritative `Variant.stock` counters
indexed by SKU, the append-only ledger, and the order / purchase-order
collections. `stock` is an `Int` so that "never goes negative" is a
theorem, not a typing artifact. -/
structure EngineState where
  stock : SKU → Int
  ledger : List StockMovement
  orders : List Order
  purchaseOrders : List PurchaseOrder

/-- Pointwise update of the stock map at one SKU. -/
def setStock (f : SKU → Int) (sku : SKU) (v : Int) : SKU → Int :=
  fun s => if s = sku then v else f s

/-- Embedding of the conditional decrement of `src/unnamed/part_000`
lines 103-106: `updateOne({ sku, stock: { $gte: qty } }, { $inc: { stock: -qty } })`.
Returns the decremented counter when the condition `stock >= qty` holds
and nothing (no mutation) otherwise. -/
def updateOne (stock : Int) (qty : Nat) : Option Int :=
  if (qty : Int) ≤ stock then some (stock - (qty : Int)) else none

/-- Modelled from the spec: `applyMovement(tenantId, sku, type, quantity,
referenceId)` of section 4.1 (the implementation is not in the visible
source; the `sale` branch follows the `updateOne` snippet of the
architecture document). A `sale` is the atomic check-and-decrement: it
succeeds only if `stock >= quantity`, mutating the counter and appending
exactly one ledger row together; on failure it returns `InsufficientStock`
and performs no mutation. The other movement types increment
unconditionally, still appending their ledger row in the same scope. -/
def applyMovement (st : EngineState) (sku : SKU) (t : MovementType)
    (qty : Nat) (ref : Nat) : Except Err EngineState :=
  match t with
  | .sale =>
    match updateOne (st.stock sku) qty with
    | some newStock =>
      .ok { st with
            stock := setStock st.stock sku newStock
            ledger := st.ledger ++ [⟨sku, .sale, qty, ref⟩] }
    | none => .error .InsufficientStock
  | t =>
    .ok { st with
          stock := setStock st.stock sku (st.stock sku + (qty : Int))
          ledger := st.ledger ++ [⟨sku, t, qty, ref⟩] }

/-- Modelled from the spec: the per-line loop of `placeOrder`
(section 4.2; the implementation is not in the visible source). Lines are
processed in the order given; each invokes the ledger's conditional `sale`
movement. Returns the resulting state together with the succeeded and the
failed lines, each in their original order. -/
def processLines (orderId : Nat) :
    EngineState → List OrderLine → EngineState × List OrderLine × List OrderLine
  | st, [] => (st, [], [])
  | st, l :: ls =>
    match applyMovement st l.sku .sale l.quantity orderId with
    | .ok st1 =>
      let r := processLines orderId st1 ls
      (r.1, l :: r.2.1, r.2.2)
    | .error _ =>
      let r := processLines orderId st ls
      (r.1, r.2.1, l :: r.2.2)

/-- Modelled from the spec: `placeOrder(tenantId, lines)` of section 4.2
(the implementation is not in the visible source). Every line succeeding
gives status Completed; a mix gives PartiallyFulfilled with the failed
lines recorded as unfulfilled; all lines failing rolls the transactional
scope back (no stock or ledger mutation), returns `NoStockAvailable`, and
still records the Order entity — with status Cancelled, the terminal
status reflecting that nothing was or will be fulfilled. -/
def placeOrder (st : EngineState) (orderId : Nat) (lines : List OrderLine) :
    EngineState × Except Err Order :=
  let r := processLines orderId st lines
  if lines ≠ [] ∧ r.2.1 = [] then
    let o : Order := ⟨orderId, lines, [], lines, .Cancelled⟩
    ({ st with orders := st.orders ++ [o] }, .error .NoStockAvailable)
  else
    let status := if r.2.2 = [] then OrderStatus.Completed
                  else OrderStatus.PartiallyFulfilled
    let o : Order := ⟨orderId, lines, r.2.1, r.2.2, status⟩
    ({ r.1 with orders := r.1.orders ++ [o] }, .ok o)

/-- Modelled from the spec: the compensation loop of `cancelOrder`
(section 4.2): one `return`-type movement per reserved line. A `ret`
movement is unconditional, so the error branch is unreachable; it is kept
so that every stock mutation goes through `applyMovement`. -/
def applyReturnLines (orderId : Nat) :
    EngineState → List OrderLine → EngineState
  | st, [] => st
  | st, l :: ls =>
    match applyMovement st l.sku .ret l.quantity orderId with
    | .ok st1 => applyReturnLines orderId st1 ls
    | .error _ => applyReturnLines orderId st ls

/-- Replace the status of the first order with the given id. -/
def setOrderStatus : List Order → Nat → OrderStatus → List Order
  | [], _, _ => []
  | o :: os, orderId, s =>
    if o.id = orderId then { o with status := s } :: os
    else o :: setOrderStatus os orderId s

/-- Modelled from the spec: `cancelOrder(orderId)` of section 4.2 (the
implementation is not in the visible source). Legal only from Pending or
PartiallyFulfilled: emits a compensating `return` movement for every
reserved quantity and sets status Cancelled. From Completed or Cancelled
(or for an unknown id) it fails with `InvalidTransition` and changes
nothing, so cancellation is never compensated twice. -/
def cancelOrder (st : EngineState) (orderId : Nat) :
    EngineState × Except Err Unit :=
  match st.orders.find? (fun o => o.id = orderId) with
  | none => (st, .error .InvalidTransition)
  | some o =>
    match o.status with
    | .Pending | .PartiallyFulfilled =>
      let st1 := applyReturnLines orderId st o.reserved
      ({ st1 with orders := setOrderStatus st1.orders orderId .Cancelled },
       .ok ())
    | _ => (st, .error .InvalidTransition)

/-- Modelled from the spec: applying one receipt to a purchase order's
item list (section 4.3). The first item carrying the receipt's SKU is the
one received against; the receipt fails with `OverReceipt` when
`receivedQty + qty > orderedQty`, and a receipt naming a SKU the order has
no item for violates the operation's precondition. On success the item's
`receivedQty` grows by `qty` and `receivedUnitPrice` records the received
price. -/
def receiveIntoItems (sku : SKU) (qty price : Nat) :
    List PurchaseOrderItem → Except Err (List PurchaseOrderItem)
  | [] => .error .InvalidTransition
  | it :: rest =>
    if it.sku = sku then
      if it.receivedQty + qty ≤ it.orderedQty then
        .ok ({ it with receivedQty := it.receivedQty + qty
                       receivedUnitPrice := some price } :: rest)
      else .error .OverReceipt
    else
      (receiveIntoItems sku qty price rest).map (fun r => it :: r)

/-- Modelled from the spec: the receipt loop of `receiveItems`
(section 4.3): each receipt updates the item list and triggers a
`purchase`-type ledger movement of `+qty` in the same transactional scope;
the first failure aborts the whole scope. -/
def processReceipts (poId : Nat) :
    EngineState → List PurchaseOrderItem → List Receipt →
    Except Err (EngineState × List PurchaseOrderItem)
  | st, items, [] => .ok (st, items)
  | st, items, r :: rs =>
    match receiveIntoItems r.sku r.qty r.unitPrice items with
    | .error e => .error e
    | .ok items1 =>
      match applyMovement st r.sku .purchase r.qty poId with
      | .error e => .error e
      | .ok st1 => processReceipts poId st1 items1 rs

/-- Whether every item of a purchase order is fully received. -/
def poFullyReceived (items : List PurchaseOrderItem) : Bool :=
  items.all (fun it => it.receivedQty = it.orderedQty)

/-- Replace the items and status of the first purchase order with the
given id. -/
def setPO : List PurchaseOrder → Nat → List PurchaseOrderItem → POStatus →
    List PurchaseOrder
  | [], _, _, _ => []
  | p :: ps, poId, items, s =>
    if p.id = poId then { p with items := items, status := s } :: ps
    else p :: setPO ps poId items s

/-- Modelled from the spec: `receiveItems(poId, receipts)` of section 4.3
(the implementation is not in the visible source). Legal only while the
purchase order is Sent or Confirmed; receipts are processed in order
inside one transactional scope, so any failure returns the original state
untouched. The purchase order's status becomes Received exactly when every
item reaches `receivedQty == orderedQty`; otherwise it keeps its status
with the partial receipts tracked per item. -/
def receiveItems (st : EngineState) (poId : Nat) (receipts : List Receipt) :
    EngineState × Except Err Unit :=
  match st.purchaseOrders.find? (fun p => p.id = poId) with
  | none => (st, .error .InvalidTransition)
  | some po =>
    match po.status with
    | .Sent | .Confirmed =>
      match processReceipts poId st po.items receipts with
      | .error e => (st, .error e)
      | .ok (st1, items1) =>
        let newStatus := if poFullyReceived items1 then POStatus.Received
                         else po.status
        ({ st1 with
           purchaseOrders := setPO st1.purchaseOrders poId items1 newStatus },
         .ok ())
    | _ => (st, .error .InvalidTransition)

/-- Modelled from the spec: the Draft to Sent transition (section 4.3),
a pure status transition with no stock side effect; Sent requires at least
one item. -/
def sendPO (st : EngineState) (poId : Nat) : EngineState × Except Err Unit :=
  match st.purchaseOrders.find? (fun p => p.id = poId) with
  | none => (st, .error .InvalidTransition)
  | some po =>
    match po.status with
    | .Draft =>
      if po.items ≠ [] then
        ({ st with purchaseOrders := setPO st.purchaseOrders poId po.items .Sent },
         .ok ())
      else (st, .error .InvalidTransition)
    | _ => (st, .error .InvalidTransition)

/-- Modelled from the spec: the Sent to Confirmed transition
(section 4.3), a pure status transition with no stock side effect. -/
def confirmPO (st : EngineState) (poId : Nat) : EngineState × Except Err Unit :=
  match st.purchaseOrders.find? (fun p => p.id = poId) with
  | none => (st, .error .InvalidTransition)
  | some po =>
    match po.status with
    | .Sent =>
      ({ st with purchaseOrders := setPO st.purchaseOrders poId po.items .Confirmed },
       .ok ())
    | _ => (st, .error .InvalidTransition)

/-- One invocation of an external interface of the core (spec section 6). -/
inductive Op where
  | place (orderId : Nat) (lines : List OrderLine)
  | cancel (orderId : Nat)
  | receive (poId : Nat) (receipts : List Receipt)
  | send (poId : Nat)
  | confirm (poId : Nat)
deriving Repr

/-- Run one operation, keeping the state it leaves behind. -/
def runOp (st : EngineState) : Op → EngineState
  | .place orderId lines => (placeOrder st orderId lines).1
  | .cancel orderId => (cancelOrder st orderId).1
  | .receive poId receipts => (receiveItems st poId receipts).1
  | .send poId => (sendPO st poId).1
  | .confirm poId => (confirmPO st poId).1

/-- Run a sequence of operations from a state. -/
def runOps (st : EngineState) (ops : List Op) : EngineState :=
  ops.foldl runOp st

/-- Sum of signed ledger deltas for one SKU (spec section 8, property
(b): ledger/counter consistency). -/
def ledgerSum (ms : List StockMovement) (sku : SKU) : Int :=
  ((ms.filter (fun m => m.sku = sku)).map mvDelta).sum

/-- Total quantity a list of order lines carries for one SKU. -/
def lineQty (lines : List OrderLine) (sku : SKU) : Nat :=
  ((lines.filter (fun l => l.sku = sku)).map (fun l => l.quantity)).sum

/-- Total successfully reserved quantity for one SKU across a list of
orders. -/
def reservedSum (orders : List Order) (sku : SKU) : Nat :=
  (orders.map (fun o => lineQty o.reserved sku)).sum

/-! ## Dashboard (embedded from `src/src/pages/Dashboard.tsx`) -/

/-- `LowStockItem` of Dashboard.tsx: `{ sku, stock, reorderPoint }`. -/
structure LowStockItem where
  sku : SKU
  stock : Int
  reorderPoint : Int
deriving DecidableEq, Repr

/-- `PurchaseOrderItem` of Dashboard.tsx (the dashboard's own, reduced
shape): `{ sku, quantity }`. -/
structure DashPOItem where
  sku : SKU
  quantity : Int
deriving DecidableEq, Repr

/-- `PendingPO` of Dashboard.tsx: `{ items?: PurchaseOrderItem[] }` —
the item list is optional. -/
structure PendingPO where
  items : Option (List DashPOItem)
deriving DecidableEq, Repr

/-- `StockMovement` of Dashboard.tsx (the chart datum):
`{ inbound?, outbound? }`, both optional. -/
structure ChartMovement where
  inbound : Option Int
  outbound : Option Int
deriving DecidableEq, Repr

/-- The fields of Dashboard.tsx's `DashboardData` the computations under
verification read: `lowStock?` and `pendingPOs?`, both optional. -/
structure DashboardData where
  lowStock : Option (List LowStockItem)
  pendingPOs : Option (List PendingPO)
deriving DecidableEq, Repr

/-- The pending accumulation inside `smartLowStock`
(Dashboard.tsx lines 97-100):
`pendingPOs.reduce((s, po) => s + (po.items?.find(i => i.sku === item.sku)?.quantity ?? 0), 0)`.
Per purchase order, `find` yields the first item with the SKU, or nothing. -/
def pendingFor (pendingPOs : List PendingPO) (sku : SKU) : Int :=
  pendingPOs.foldl
    (fun s po =>
      s + ((((po.items.getD []).find? (fun i => i.sku = sku)).map
              (fun i => i.quantity)).getD 0))
    0

/-- `smartLowStock` of Dashboard.tsx lines 92-104:
`(data.lowStock ?? []).filter(item => item.stock + pending < item.reorderPoint)`
where `pending` is `pendingFor (data.pendingPOs ?? []) item.sku`. -/
def smartLowStock (data : DashboardData) : List LowStockItem :=
  (data.lowStock.getD []).filter
    (fun item =>
      item.stock + pendingFor (data.pendingPOs.getD []) item.sku
        < item.reorderPoint)

/-- The divisor of `MiniStockChart` (Dashboard.tsx lines 225-228):
`Math.max(1, ...data.map(d => Math.max(d.inbound ?? 0, d.outbound ?? 0)))`. -/
def chartMax (data : List ChartMovement) : Int :=
  data.foldl
    (fun m d => max m (max (d.inbound.getD 0) (d.outbound.getD 0)))
    1

/-- A bar height of `MiniStockChart` (Dashboard.tsx line 234):
`((d.inbound ?? 0) / max) * 100`, over the rationals. -/
def barHeight (v : Option Int) (data : List ChartMovement) : ℚ :=
  ((v.getD 0 : Int) : ℚ) / ((chartMax data : Int) : ℚ) * 100

/-- The dashboard-payload view of one purchase-order item: its SKU with
its outstanding quantity `orderedQty − receivedQty`. -/
def toDashItem (it : PurchaseOrderItem) : DashPOItem :=
  ⟨it.sku, (it.orderedQty : Int) - (it.receivedQty : Int)⟩

/-- Modelled from the spec: the server-side dashboard payload feeding
`smartLowStock`'s `pendingPOs` is not in the visible source; section 4.4
says the pending quantity counts `orderedQty − receivedQty` over purchase
orders not yet Received, so each such order is reported with one entry per
item carrying its outstanding quantity. -/
def pendingPOsOf (pos : List PurchaseOrder) : List PendingPO :=
  (pos.filter (fun p => p.status ≠ POStatus.Received)).map
    (fun p => ⟨some (p.items.map toDashItem)⟩)

/-- The pending quantity exactly as spec section 4.4 words it:
the sum of `orderedQty − receivedQty` over all PurchaseOrderItems for the
SKU across purchase orders not yet Received. -/
def specPendingQty (pos : List PurchaseOrder) (sku : SKU) : Int :=
  ((pos.filter (fun p => p.status ≠ POStatus.Received)).map
    (fun p =>
      ((p.items.filter (fun it => it.sku = sku)).map
        (fun it => (it.orderedQty : Int) - (it.receivedQty : Int))).sum)).sum

/-! ## Basic lemmas -/

theorem setStock_self (f : SKU → Int) (sku : SKU) (v : Int) :
    setStock f sku v sku = v := by
  simp [setStock]

theorem setStock_other (f : SKU → Int) (sku : SKU) (v : Int) {s : SKU}
    (h : s ≠ sku) : setStock f sku v s = f s := by
  simp [setStock, h]

/-- Everything `applyMovement` does on success: the stock counter moves by
the movement's signed delta at its SKU (and nowhere else), the movement is
appended to the ledger, and the order / purchase-order collections are
untouched. -/
theorem applyMovement_ok {st : EngineState} {sku : SKU} {t : MovementType}
    {qty ref : Nat} {st' : EngineState}
    (h : applyMovement st sku t qty ref = .ok st') :
    st' = { st with
            stock := setStock st.stock sku
              (st.stock sku + mvDelta ⟨sku, t, qty, ref⟩)
            ledger := st.ledger ++ [⟨sku, t, qty, ref⟩] } := by
  cases t
  case sale =>
    simp only [applyMovement, updateOne] at h
    split at h
    next newStock heq =>
      split at heq
      next hc =>
        cases heq
        cases h
        simp [mvDelta, Int.sub_eq_add_neg]
      next hc => cases heq
    next => cases h
  all_goals
    simp only [applyMovement] at h
    cases h
    simp [mvDelta]

/-- A non-`sale` movement never fails. -/
theorem applyMovement_incr_ok (st : EngineState) (sku : SKU)
    (t : MovementType) (ht : t ≠ .sale) (qty ref : Nat) :
    applyMovement st sku t qty ref =
      .ok { st with
            stock := setStock st.stock sku (st.stock sku + (qty : Int))
            ledger := st.ledger ++ [⟨sku, t, qty, ref⟩] } := by
  cases t <;> simp_all [applyMovement]

/-- A failed movement is a failed conditional `sale`. -/
theorem applyMovement_err {st : EngineState} {sku : SKU} {t : MovementType}
    {qty ref : Nat} {e : Err}
    (h : applyMovement st sku t qty ref = .error e) :
    t = .sale ∧ e = .InsufficientStock ∧ st.stock sku < (qty : Int) := by
  cases t <;> simp only [applyMovement, updateOne] at h
  case sale =>
    split at h
    next newStock heq => cases h
    next heq =>
      split at heq
      next hc => cases heq
      next hc =>
        cases h
        exact ⟨rfl, rfl, by omega⟩
  all_goals cases h

/-- C3.  `applyMovement` with type `sale` succeeds exactly when
`stock >= quantity` holds at the moment of application; success is the
atomic check-and-decrement that also appends exactly one ledger row, and
failure returns `InsufficientStock` producing no new state, so the stock
counter and the ledger stay untouched. -/
theorem sale_movement_conditional (st : EngineState) (sku : SKU)
    (qty ref : Nat) :
    ((qty : Int) ≤ st.stock sku →
      applyMovement st sku .sale qty ref =
        .ok { st with
              stock := setStock st.stock sku (st.stock sku - (qty : Int))
              ledger := st.ledger ++ [⟨sku, .sale, qty, ref⟩] }) ∧
    (st.stock sku < (qty : Int) →
      applyMovement st sku .sale qty ref = .error .InsufficientStock) := by
  constructor
  · intro h
    simp [applyMovement, updateOne, h]
  · intro h
    have hn : ¬((qty : Int) ≤ st.stock sku) := by omega
    simp [applyMovement, updateOne, hn]

/-- A concrete run of the conditional sale: stock 5, quantity 3. -/
def saleDemoState : EngineState := ⟨fun _ => 5, [], [], []⟩

theorem sale_movement_conditional_witness :
    applyMovement saleDemoState "A" .sale 3 1 =
      .ok { saleDemoState with
            stock := setStock saleDemoState.stock "A"
              (saleDemoState.stock "A" - (3 : Int))
            ledger := [⟨"A", .sale, 3, 1⟩] } :=
  (sale_movement_conditional saleDemoState "A" 3 1).1 (by decide)

/-! ## Low-stock evaluation (C7, C9) -/

/-- C7.  Over the candidate list the dashboard evaluates
(`data.lowStock ?? []`), `smartLowStock` flags an item exactly when
`stock + pendingQty < reorderPoint`: no false positives and no false
negatives among the evaluated items. -/
theorem smartLowStock_iff (data : DashboardData) (item : LowStockItem) :
    item ∈ smartLowStock data ↔
      item ∈ data.lowStock.getD [] ∧
        item.stock + pendingFor (data.pendingPOs.getD []) item.sku
          < item.reorderPoint := by
  simp [smartLowStock, List.mem_filter]

theorem smartLowStock_iff_witness :
    (⟨"A", 2, 5⟩ : LowStockItem) ∈ smartLowStock ⟨some [⟨"A", 2, 5⟩], none⟩ :=
  (smartLowStock_iff ⟨some [⟨"A", 2, 5⟩], none⟩ ⟨"A", 2, 5⟩).2
    ⟨by simp, by decide⟩

/-- Unfolding the `reduce` of `pendingFor` into a sum of per-purchase-order
contributions. -/
theorem pendingFor_eq_sum (l : List PendingPO) (sku : SKU) :
    pendingFor l sku =
      (l.map (fun po =>
        ((((po.items.getD []).find? (fun i => i.sku = sku)).map
            (fun i => i.quantity)).getD 0))).sum := by
  have aux : ∀ (l : List PendingPO) (a : Int),
      l.foldl
        (fun s po =>
          s + ((((po.items.getD []).find? (fun i => i.sku = sku)).map
                  (fun i => i.quantity)).getD 0))
        a
      = a + (l.map (fun po =>
          ((((po.items.getD []).find? (fun i => i.sku = sku)).map
              (fun i => i.quantity)).getD 0))).sum := by
    intro l
    induction l with
    | nil => intro a; simp
    | cons po rest ih =>
      intro a
      simp only [List.foldl_cons, List.map_cons, List.sum_cons]
      rw [ih]
      ring
  simpa using aux l 0

/-- A purchase order with no item for the SKU contributes nothing to
`pendingFor`. -/
theorem pendingFor_eq_zero (l : List PendingPO) (sku : SKU)
    (h : ∀ po ∈ l, ∀ i ∈ po.items.getD [], i.sku ≠ sku) :
    pendingFor l sku = 0 := by
  rw [pendingFor_eq_sum]
  induction l with
  | nil => simp
  | cons po rest ih =>
    simp only [List.map_cons, List.sum_cons]
    have hfind : (po.items.getD []).find? (fun i => i.sku = sku) = none := by
      rw [List.find?_eq_none]
      intro i hi
      simpa using h po (by simp) i hi
    rw [hfind]
    simp only [Option.map_none', Option.getD_none, zero_add]
    exact ih (fun p hp i hi => h p (by simp [hp]) i hi)

/-- C9.  `smartLowStock` only ever flags items of the server-provided
`data.lowStock` list: an item absent from it is never flagged, whatever
its stock, pending purchase orders, or threshold.  When `pendingPOs` is
absent the pending quantity contributes 0 and the test degrades to
`stock < reorderPoint`; the same happens for an item no pending purchase
order carries an item for. -/
theorem smartLowStock_subset_and_degenerate (data : DashboardData) :
    (∀ item ∈ smartLowStock data, item ∈ data.lowStock.getD []) ∧
    (data.pendingPOs = none →
      smartLowStock data =
        (data.lowStock.getD []).filter
          (fun item => item.stock < item.reorderPoint)) ∧
    (∀ item : LowStockItem,
      (∀ po ∈ data.pendingPOs.getD [], ∀ i ∈ po.items.getD [],
          i.sku ≠ item.sku) →
      (item ∈ smartLowStock data ↔
        item ∈ data.lowStock.getD [] ∧
          item.stock < item.reorderPoint)) := by
  refine ⟨?_, ?_, ?_⟩
  · intro item h
    exact ((smartLowStock_iff data item).1 h).1
  · intro h
    simp [smartLowStock, h, pendingFor]
  · intro item h
    rw [smartLowStock_iff]
    rw [pendingFor_eq_zero _ _ h]
    simp

/-- A concrete dashboard payload exercising the degenerate branch of the
previous theorem: no pending purchase orders. -/
def demoDashboard : DashboardData :=
  ⟨some [⟨"A", 2, 5⟩, ⟨"B", 9, 5⟩], none⟩

theorem smartLowStock_subset_and_degenerate_witness :
    smartLowStock demoDashboard = [⟨"A", 2, 5⟩] :=
  (smartLowStock_subset_and_degenerate demoDashboard).2.1 rfl

/-! ## The pending-quantity sum (C8) -/

/-- A purchase order that lists the same SKU twice: the dashboard's
`find` only counts the first of the two items. -/
def duplicateSkuPO : List PurchaseOrder :=
  [⟨1, .Confirmed, [⟨"A", 5, 0, 1, none⟩, ⟨"A", 7, 0, 1, none⟩]⟩]

/-- The dashboard's pending quantity differs from the specification's
`Σ (orderedQty − receivedQty)` as soon as one not-yet-Received purchase
order carries two items for the same SKU: the `reduce` over pending
purchase orders adds only the first matching item per order (`find`),
yielding 5 where the spec's sum yields 12. -/
theorem pendingQty_counterexample :
    pendingFor (pendingPOsOf duplicateSkuPO) "A" = 5 ∧
      specPendingQty duplicateSkuPO "A" = 12 ∧
      pendingFor (pendingPOsOf duplicateSkuPO) "A"
        ≠ specPendingQty duplicateSkuPO "A" := by
  refine ⟨by decide, by decide, by decide⟩

/-- Per purchase order: when the item list carries at most one item for
the SKU, the first-match quantity of the dashboard payload equals the sum
of outstanding quantities over all matching items. -/
theorem find_toDashItem_eq_filtered_sum (items : List PurchaseOrderItem)
    (sku : SKU)
    (h : (items.filter (fun it => it.sku = sku)).length ≤ 1) :
    (((items.map toDashItem).find? (fun i => i.sku = sku)).map
        (fun i => i.quantity)).getD 0
      = ((items.filter (fun it => it.sku = sku)).map
          (fun it => (it.orderedQty : Int) - (it.receivedQty : Int))).sum := by
  induction items with
  | nil => simp
  | cons it rest ih =>
    by_cases hs : it.sku = sku
    · have hfd : ((it :: rest).map toDashItem).find? (fun i => i.sku = sku)
          = some (toDashItem it) := by
        rw [List.map_cons]
        exact List.find?_cons_of_pos _ (by simp [toDashItem, hs])
      have hrest : rest.filter (fun it => it.sku = sku) = [] := by
        rw [List.filter_cons_of_pos (by simp [hs])] at h
        simp only [List.length_cons] at h
        exact List.eq_nil_of_length_eq_zero (by omega)
      rw [hfd, List.filter_cons_of_pos (by simp [hs]), hrest]
      simp [toDashItem]
    · have hfd : ((it :: rest).map toDashItem).find? (fun i => i.sku = sku)
          = (rest.map toDashItem).find? (fun i => i.sku = sku) := by
        rw [List.map_cons]
        exact List.find?_cons_of_neg _ (by simp [toDashItem, hs])
      have h' : (rest.filter (fun it => it.sku = sku)).length ≤ 1 := by
        rw [List.filter_cons_of_neg (by simp [hs])] at h
        exact h
      rw [hfd, List.filter_cons_of_neg (by simp [hs])]
      exact ih h'

/-- C8 (amended).  The dashboard's pending quantity for a SKU equals the
spec's `Σ (orderedQty − receivedQty)` over all items of not-yet-Received
purchase orders, provided each purchase order lists the SKU at most once;
with a duplicate-SKU order only the first matching item per order counts. -/
theorem pendingQty_eq_spec (pos : List PurchaseOrder) (sku : SKU)
    (h : ∀ po ∈ pos, (po.items.filter (fun it => it.sku = sku)).length ≤ 1) :
    pendingFor (pendingPOsOf pos) sku = specPendingQty pos sku := by
  rw [pendingFor_eq_sum, pendingPOsOf, specPendingQty, List.map_map]
  apply congrArg List.sum
  apply List.map_congr_left
  intro p hp
  have hp' : p ∈ pos := List.mem_of_mem_filter hp
  simpa using find_toDashItem_eq_filtered_sum p.items sku (h p hp')

/-- Purchase orders listing each SKU once: one Confirmed order with 6
outstanding units of SKU A, and one Received order that no longer counts. -/
def distinctSkuPO : List PurchaseOrder :=
  [⟨1, .Confirmed, [⟨"A", 10, 4, 1, none⟩, ⟨"B", 7, 0, 1, none⟩]⟩,
   ⟨2, .Received, [⟨"A", 3, 3, 1, none⟩]⟩]

theorem pendingQty_eq_spec_witness :
    pendingFor (pendingPOsOf distinctSkuPO) "A"
        = specPendingQty distinctSkuPO "A" ∧
      specPendingQty distinctSkuPO "A" = 6 :=
  ⟨pendingQty_eq_spec distinctSkuPO "A" (by decide), by decide⟩

/-! ## The stock-movement mini chart (C10) -/

/-- The accumulator of `chartMax` only ever grows. -/
theorem le_foldl_max (data : List ChartMovement) (a : Int) :
    a ≤ data.foldl
      (fun m d => max m (max (d.inbound.getD 0) (d.outbound.getD 0))) a := by
  induction data generalizing a with
  | nil => simp
  | cons d rest ih =>
    simp only [List.foldl_cons]
    exact le_trans (le_max_left _ _) (ih _)

/-- C10.  `MiniStockChart` never divides by zero: the divisor
`Math.max(1, ...)` is at least 1 for every input — in particular for
inputs whose inbound and outbound values are all 0 or absent — so each
bar-height percentage is a quotient by a nonzero number that recovers its
numerator. -/
theorem chartMax_pos (data : List ChartMovement) :
    1 ≤ chartMax data ∧
      ∀ d ∈ data,
        ((chartMax data : ℚ) ≠ 0 ∧
          barHeight d.inbound data * (chartMax data : ℚ)
            = ((d.inbound.getD 0 : Int) : ℚ) * 100 ∧
          barHeight d.outbound data * (chartMax data : ℚ)
            = ((d.outbound.getD 0 : Int) : ℚ) * 100) := by
  have h1 : 1 ≤ chartMax data := le_foldl_max data 1
  have hne : ((chartMax data : ℚ)) ≠ 0 := by
    have : (1 : ℚ) ≤ ((chartMax data : Int) : ℚ) := by
      exact_mod_cast h1
    positivity
  refine ⟨h1, fun d _ => ⟨hne, ?_, ?_⟩⟩ <;>
    · rw [barHeight]
      field_simp

theorem chartMax_pos_witness : 1 ≤ chartMax [⟨some 0, none⟩, ⟨none, none⟩] :=
  (chartMax_pos [⟨some 0, none⟩, ⟨none, none⟩]).1

/-! ## Ledger/counter consistency and nonnegative stock (C1, C2) -/

theorem ledgerSum_nil (sku : SKU) : ledgerSum [] sku = 0 := by
  simp [ledgerSum]

theorem ledgerSum_append (ms ns : List StockMovement) (sku : SKU) :
    ledgerSum (ms ++ ns) sku = ledgerSum ms sku + ledgerSum ns sku := by
  simp [ledgerSum, List.filter_append]

theorem ledgerSum_single (m : StockMovement) (sku : SKU) :
    ledgerSum [m] sku = if m.sku = sku then mvDelta m else 0 := by
  by_cases h : m.sku = sku <;> simp [ledgerSum, h]

/-- `StockNonneg st` says no stock counter is negative. -/
def StockNonneg (st : EngineState) : Prop :=
  ∀ s, 0 ≤ st.stock s

/-- One state follows another through ledger-backed mutations: the ledger
grew by an appended batch whose per-SKU deltas account exactly for the
stock difference, and nonnegative stock is preserved. -/
def StepOK (st st' : EngineState) : Prop :=
  (∃ ms, st'.ledger = st.ledger ++ ms ∧
      ∀ sku, st'.stock sku = st.stock sku + ledgerSum ms sku) ∧
    (StockNonneg st → StockNonneg st')

theorem StepOK.rfl (st : EngineState) : StepOK st st :=
  ⟨⟨[], by simp, fun sku => by simp [ledgerSum_nil]⟩, id⟩

theorem StepOK.trans {a b c : EngineState}
    (h1 : StepOK a b) (h2 : StepOK b c) : StepOK a c := by
  obtain ⟨⟨ms1, hl1, hs1⟩, hn1⟩ := h1
  obtain ⟨⟨ms2, hl2, hs2⟩, hn2⟩ := h2
  refine ⟨⟨ms1 ++ ms2, ?_, ?_⟩, fun h => hn2 (hn1 h)⟩
  · rw [hl2, hl1, List.append_assoc]
  · intro sku
    rw [hs2, hs1, ledgerSum_append]
    ring

/-- A state change that leaves stock and ledger alone is a valid step. -/
theorem StepOK.of_eq {a b : EngineState}
    (hl : b.ledger = a.ledger) (hs : ∀ sku, b.stock sku = a.stock sku) :
    StepOK a b :=
  ⟨⟨[], by simp [hl], fun sku => by simp [hs, ledgerSum_nil]⟩,
   fun h s => hs s ▸ h s⟩

/-- A successful conditional `sale` had `stock >= qty` at its moment of
application. -/
theorem applyMovement_sale_ok_le {st st' : EngineState} {sku : SKU}
    {qty ref : Nat} (h : applyMovement st sku .sale qty ref = .ok st') :
    (qty : Int) ≤ st.stock sku := by
  simp only [applyMovement, updateOne] at h
  split at h
  next newStock heq =>
    split at heq
    next hc => exact hc
    next => cases heq
  next => cases h

/-- Every successful movement is a valid step: ledger append and stock
mutation commit together, and the stock stays nonnegative (`sale` is
guarded, the rest increment). -/
theorem applyMovement_stepOK {st st' : EngineState} {sku : SKU}
    {t : MovementType} {qty ref : Nat}
    (h : applyMovement st sku t qty ref = .ok st') : StepOK st st' := by
  have hok := applyMovement_ok h
  constructor
  · refine ⟨[⟨sku, t, qty, ref⟩], by rw [hok], fun s => ?_⟩
    rw [hok]
    rw [ledgerSum_single]
    by_cases hs : s = sku
    · subst hs
      simp [setStock_self]
    · rw [show ({ st with
            stock := setStock st.stock sku
              (st.stock sku + mvDelta ⟨sku, t, qty, ref⟩)
            ledger := st.ledger ++ [⟨sku, t, qty, ref⟩] } : EngineState).stock s
          = setStock st.stock sku
              (st.stock sku + mvDelta ⟨sku, t, qty, ref⟩) s from rfl]
      rw [setStock_other _ _ _ hs]
      have : ¬(sku = s) := fun e => hs e.symm
      simp [this]
  · intro hn s
    rw [hok]
    show 0 ≤ setStock st.stock sku (st.stock sku + mvDelta ⟨sku, t, qty, ref⟩) s
    by_cases hs : s = sku
    · rw [hs, setStock_self]
      cases t with
      | sale =>
        have hle := applyMovement_sale_ok_le h
        simp only [mvDelta]
        omega
      | purchase =>
        have hn0 := hn sku
        simp only [mvDelta]
        omega
      | ret =>
        have hn0 := hn sku
        simp only [mvDelta]
        omega
      | adjustment =>
        have hn0 := hn sku
        simp only [mvDelta]
        omega
    · rw [setStock_other _ _ _ hs]
      exact hn s

theorem processLines_stepOK (orderId : Nat) (lines : List OrderLine)
    (st : EngineState) : StepOK st (processLines orderId st lines).1 := by
  induction lines generalizing st with
  | nil => exact StepOK.rfl st
  | cons l ls ih =>
    cases hm : applyMovement st l.sku .sale l.quantity orderId with
    | ok st1 =>
      have hred : (processLines orderId st (l :: ls)).1
          = (processLines orderId st1 ls).1 := by
        simp [processLines, hm]
      rw [hred]
      exact (applyMovement_stepOK hm).trans (ih st1)
    | error e =>
      have hred : (processLines orderId st (l :: ls)).1
          = (processLines orderId st ls).1 := by
        simp [processLines, hm]
      rw [hred]
      exact ih st

theorem applyReturnLines_stepOK (orderId : Nat) (ls : List OrderLine)
    (st : EngineState) : StepOK st (applyReturnLines orderId st ls) := by
  induction ls generalizing st with
  | nil => exact StepOK.rfl st
  | cons l rest ih =>
    cases hm : applyMovement st l.sku .ret l.quantity orderId with
    | ok st1 =>
      have hred : applyReturnLines orderId st (l :: rest)
          = applyReturnLines orderId st1 rest := by
        simp [applyReturnLines, hm]
      rw [hred]
      exact (applyMovement_stepOK hm).trans (ih st1)
    | error e =>
      have hred : applyReturnLines orderId st (l :: rest)
          = applyReturnLines orderId st rest := by
        simp [applyReturnLines, hm]
      rw [hred]
      exact ih st

theorem processReceipts_stepOK (poId : Nat) (rs : List Receipt)
    (st : EngineState) (items : List PurchaseOrderItem)
    {st1 : EngineState} {items1 : List PurchaseOrderItem}
    (h : processReceipts poId st items rs = .ok (st1, items1)) :
    StepOK st st1 := by
  induction rs generalizing st items with
  | nil =>
    simp only [processReceipts] at h
    cases h
    exact StepOK.rfl _
  | cons r rest ih =>
    simp only [processReceipts] at h
    cases hri : receiveIntoItems r.sku r.qty r.unitPrice items with
    | error e => rw [hri] at h; cases h
    | ok items2 =>
      rw [hri] at h
      cases hm : applyMovement st r.sku .purchase r.qty poId with
      | error e => rw [hm] at h; cases h
      | ok st2 =>
        rw [hm] at h
        exact (applyMovement_stepOK hm).trans (ih st2 items2 h)

theorem placeOrder_stepOK (st : EngineState) (orderId : Nat)
    (lines : List OrderLine) : StepOK st (placeOrder st orderId lines).1 := by
  by_cases hc : lines ≠ [] ∧ (processLines orderId st lines).2.1 = []
  · have hred : (placeOrder st orderId lines).1
        = { st with orders := st.orders ++ [⟨orderId, lines, [], lines, .Cancelled⟩] } := by
      simp only [placeOrder]
      rw [if_pos hc]
    rw [hred]
    exact StepOK.of_eq (by simp) (fun s => by simp)
  · have hred : (placeOrder st orderId lines).1
        = { (processLines orderId st lines).1 with
            orders := (processLines orderId st lines).1.orders ++
              [⟨orderId, lines, (processLines orderId st lines).2.1,
                (processLines orderId st lines).2.2,
                if (processLines orderId st lines).2.2 = [] then .Completed
                else .PartiallyFulfilled⟩] } := by
      simp only [placeOrder]
      rw [if_neg hc]
    rw [hred]
    exact (processLines_stepOK orderId lines st).trans
      (StepOK.of_eq (by simp) (fun s => by simp))

theorem cancelOrder_stepOK (st : EngineState) (orderId : Nat) :
    StepOK st (cancelOrder st orderId).1 := by
  cases hf : st.orders.find? (fun o => o.id = orderId) with
  | none =>
    have : (cancelOrder st orderId).1 = st := by simp [cancelOrder, hf]
    rw [this]
    exact StepOK.rfl st
  | some o =>
    cases hst : o.status
    case Pending =>
      have hred : (cancelOrder st orderId).1
          = { applyReturnLines orderId st o.reserved with
              orders := setOrderStatus
                (applyReturnLines orderId st o.reserved).orders orderId
                .Cancelled } := by
        simp [cancelOrder, hf, hst]
      rw [hred]
      exact (applyReturnLines_stepOK orderId o.reserved st).trans
        (StepOK.of_eq (by simp) (fun s => by simp))
    case PartiallyFulfilled =>
      have hred : (cancelOrder st orderId).1
          = { applyReturnLines orderId st o.reserved with
              orders := setOrderStatus
                (applyReturnLines orderId st o.reserved).orders orderId
                .Cancelled } := by
        simp [cancelOrder, hf, hst]
      rw [hred]
      exact (applyReturnLines_stepOK orderId o.reserved st).trans
        (StepOK.of_eq (by simp) (fun s => by simp))
    case Completed =>
      have : (cancelOrder st orderId).1 = st := by simp [cancelOrder, hf, hst]
      rw [this]
      exact StepOK.rfl st
    case Cancelled =>
      have : (cancelOrder st orderId).1 = st := by simp [cancelOrder, hf, hst]
      rw [this]
      exact StepOK.rfl st

theorem receiveItems_stepOK (st : EngineState) (poId : Nat)
    (receipts : List Receipt) : StepOK st (receiveItems st poId receipts).1 := by
  cases hf : st.purchaseOrders.find? (fun p => p.id = poId) with
  | none =>
    have : (receiveItems st poId receipts).1 = st := by
      simp [receiveItems, hf]
    rw [this]
    exact StepOK.rfl st
  | some po =>
    cases hst : po.status
    case Sent | Confirmed =>
      cases hp : processReceipts poId st po.items receipts with
      | error e =>
        have : (receiveItems st poId receipts).1 = st := by
          simp [receiveItems, hf, hst, hp]
        rw [this]
        exact StepOK.rfl st
      | ok pair =>
        have hred : (receiveItems st poId receipts).1
            = { pair.1 with
                purchaseOrders := setPO pair.1.purchaseOrders poId pair.2
                  (if poFullyReceived pair.2 then POStatus.Received
                   else po.status) } := by
          simp [receiveItems, hf, hst, hp]
        rw [hred]
        exact (processReceipts_stepOK poId receipts st po.items
            (by rw [hp])).trans
          (StepOK.of_eq (by simp) (fun s => by simp))
    case Draft | Received =>
      have : (receiveItems st poId receipts).1 = st := by
        simp [receiveItems, hf, hst]
      rw [this]
      exact StepOK.rfl st

theorem sendPO_stepOK (st : EngineState) (poId : Nat) :
    StepOK st (sendPO st poId).1 := by
  cases hf : st.purchaseOrders.find? (fun p => p.id = poId) with
  | none =>
    have : (sendPO st poId).1 = st := by simp [sendPO, hf]
    rw [this]
    exact StepOK.rfl st
  | some po =>
    cases hst : po.status
    case Draft =>
      by_cases hi : po.items ≠ []
      · have hred : (sendPO st poId).1
            = { st with
                purchaseOrders := setPO st.purchaseOrders poId po.items .Sent } := by
          simp [sendPO, hf, hst, hi]
        rw [hred]
        exact StepOK.of_eq (by simp) (fun s => by simp)
      · have : (sendPO st poId).1 = st := by simp [sendPO, hf, hst, hi]
        rw [this]
        exact StepOK.rfl st
    all_goals
      have heq : (sendPO st poId).1 = st := by simp [sendPO, hf, hst]
      rw [heq]
      exact StepOK.rfl st

theorem confirmPO_stepOK (st : EngineState) (poId : Nat) :
    StepOK st (confirmPO st poId).1 := by
  cases hf : st.purchaseOrders.find? (fun p => p.id = poId) with
  | none =>
    have : (confirmPO st poId).1 = st := by simp [confirmPO, hf]
    rw [this]
    exact StepOK.rfl st
  | some po =>
    cases hst : po.status
    case Sent =>
      have hred : (confirmPO st poId).1
          = { st with
              purchaseOrders := setPO st.purchaseOrders poId po.items .Confirmed } := by
        simp [confirmPO, hf, hst]
      rw [hred]
      exact StepOK.of_eq (by simp) (fun s => by simp)
    all_goals
      have : (confirmPO st poId).1 = st := by simp [confirmPO, hf, hst]
      rw [this]
      exact StepOK.rfl st

theorem runOp_stepOK (st : EngineState) (op : Op) : StepOK st (runOp st op) := by
  cases op with
  | place orderId lines => exact placeOrder_stepOK st orderId lines
  | cancel orderId => exact cancelOrder_stepOK st orderId
  | receive poId receipts => exact receiveItems_stepOK st poId receipts
  | send poId => exact sendPO_stepOK st poId
  | confirm poId => exact confirmPO_stepOK st poId

theorem runOps_stepOK (st : EngineState) (ops : List Op) :
    StepOK st (runOps st ops) := by
  induction ops generalizing st with
  | nil => exact StepOK.rfl st
  | cons op rest ih =>
    exact (runOp_stepOK st op).trans (ih (runOp st op))

/-- C2.  In every state the system can reach from a fresh tenant state
(empty ledger, no orders, any initial stock and purchase orders) by any
sequence of operations, the current `Variant.stock` of a SKU minus its
initial value equals the sum of the signed deltas of the ledger movements
recorded for that SKU: every stock mutation commits together with its
ledger append, so the counter and the ledger never diverge. -/
theorem ledger_counter_consistency (init : SKU → Int)
    (pos : List PurchaseOrder) (ops : List Op) (sku : SKU) :
    (runOps ⟨init, [], [], pos⟩ ops).stock sku - init sku
      = ledgerSum (runOps ⟨init, [], [], pos⟩ ops).ledger sku := by
  obtain ⟨⟨ms, hl, hs⟩, _⟩ := runOps_stepOK ⟨init, [], [], pos⟩ ops
  rw [hs, hl]
  show init sku + ledgerSum ([] ++ ms) sku - init sku = ledgerSum ([] ++ ms) sku
  ring

theorem ledger_counter_consistency_witness :
    (runOps ⟨fun _ => 5, [], [], []⟩ [.place 1 [⟨"A", 2⟩]]).stock "A"
        - (fun _ => (5 : Int)) "A"
      = ledgerSum (runOps ⟨fun _ => 5, [], [], []⟩ [.place 1 [⟨"A", 2⟩]]).ledger "A" :=
  ledger_counter_consistency (fun _ => 5) [] [.place 1 [⟨"A", 2⟩]] "A"

theorem lineQty_nil (s : SKU) : lineQty [] s = 0 := by
  simp [lineQty]

theorem lineQty_cons (l : OrderLine) (ls : List OrderLine) (s : SKU) :
    lineQty (l :: ls) s
      = (if l.sku = s then l.quantity else 0) + lineQty ls s := by
  by_cases h : l.sku = s <;> simp [lineQty, List.filter_cons, h]

theorem reservedSum_append (os : List Order) (o : Order) (sku : SKU) :
    reservedSum (os ++ [o]) sku = reservedSum os sku + lineQty o.reserved sku := by
  simp [reservedSum]

/-- `processLines` decrements each SKU's stock by exactly the total
quantity of the lines that succeeded. -/
theorem processLines_stock (orderId : Nat) (lines : List OrderLine)
    (st : EngineState) (s : SKU) :
    (processLines orderId st lines).1.stock s
      = st.stock s - (lineQty (processLines orderId st lines).2.1 s : Int) := by
  induction lines generalizing st with
  | nil => simp [processLines, lineQty_nil]
  | cons l ls ih =>
    cases hm : applyMovement st l.sku .sale l.quantity orderId with
    | ok st1 =>
      have hred : processLines orderId st (l :: ls)
          = ((processLines orderId st1 ls).1,
             l :: (processLines orderId st1 ls).2.1,
             (processLines orderId st1 ls).2.2) := by
        simp [processLines, hm]
      rw [hred]
      show (processLines orderId st1 ls).1.stock s
          = st.stock s - (lineQty (l :: (processLines orderId st1 ls).2.1) s : Int)
      rw [ih st1, lineQty_cons]
      have hok := applyMovement_ok hm
      have hst1 : st1.stock s
          = setStock st.stock l.sku
              (st.stock l.sku + mvDelta ⟨l.sku, .sale, l.quantity, orderId⟩) s := by
        rw [hok]
      rw [hst1]
      by_cases hs : s = l.sku
      · rw [hs, setStock_self]
        simp only [mvDelta, if_pos rfl]
        push_cast
        ring
      · rw [setStock_other _ _ _ hs]
        have : ¬(l.sku = s) := fun e => hs e.symm
        simp [this]
    | error e =>
      have hred : processLines orderId st (l :: ls)
          = ((processLines orderId st ls).1,
             (processLines orderId st ls).2.1,
             l :: (processLines orderId st ls).2.2) := by
        simp [processLines, hm]
      rw [hred]
      exact ih st

/-- `processLines` never touches the order collection. -/
theorem processLines_orders (orderId : Nat) (lines : List OrderLine)
    (st : EngineState) :
    (processLines orderId st lines).1.orders = st.orders := by
  induction lines generalizing st with
  | nil => simp [processLines]
  | cons l ls ih =>
    cases hm : applyMovement st l.sku .sale l.quantity orderId with
    | ok st1 =>
      have hred : (processLines orderId st (l :: ls)).1
          = (processLines orderId st1 ls).1 := by
        simp [processLines, hm]
      rw [hred, ih st1, applyMovement_ok hm]
    | error e =>
      have hred : (processLines orderId st (l :: ls)).1
          = (processLines orderId st ls).1 := by
        simp [processLines, hm]
      rw [hred]
      exact ih st

/-- Every line ends up either succeeded or failed. -/
theorem processLines_length (orderId : Nat) (lines : List OrderLine)
    (st : EngineState) :
    (processLines orderId st lines).2.1.length
      + (processLines orderId st lines).2.2.length = lines.length := by
  induction lines generalizing st with
  | nil => simp [processLines]
  | cons l ls ih =>
    cases hm : applyMovement st l.sku .sale l.quantity orderId with
    | ok st1 =>
      have hred : processLines orderId st (l :: ls)
          = ((processLines orderId st1 ls).1,
             l :: (processLines orderId st1 ls).2.1,
             (processLines orderId st1 ls).2.2) := by
        simp [processLines, hm]
      rw [hred]
      have := ih st1
      simp only [List.length_cons]
      omega
    | error e =>
      have hred : processLines orderId st (l :: ls)
          = ((processLines orderId st ls).1,
             (processLines orderId st ls).2.1,
             l :: (processLines orderId st ls).2.2) := by
        simp [processLines, hm]
      rw [hred]
      have := ih st
      simp only [List.length_cons]
      omega

/-- `placeOrder` conserves `stock + reserved` for every SKU: whatever a
new order reserves is taken from stock, one for one. -/
theorem placeOrder_account (st : EngineState) (orderId : Nat)
    (lines : List OrderLine) (sku : SKU) :
    (placeOrder st orderId lines).1.stock sku
        + (reservedSum (placeOrder st orderId lines).1.orders sku : Int)
      = st.stock sku + (reservedSum st.orders sku : Int) := by
  by_cases hc : lines ≠ [] ∧ (processLines orderId st lines).2.1 = []
  · have hred : (placeOrder st orderId lines).1
        = { st with orders :=
              st.orders ++ [⟨orderId, lines, [], lines, .Cancelled⟩] } := by
      simp only [placeOrder]
      rw [if_pos hc]
    rw [hred]
    show st.stock sku
        + (reservedSum (st.orders ++ [⟨orderId, lines, [], lines, .Cancelled⟩]) sku : Int)
      = st.stock sku + (reservedSum st.orders sku : Int)
    rw [reservedSum_append]
    simp [lineQty_nil]
  · have hred : (placeOrder st orderId lines).1
        = { (processLines orderId st lines).1 with
            orders := (processLines orderId st lines).1.orders ++
              [⟨orderId, lines, (processLines orderId st lines).2.1,
                (processLines orderId st lines).2.2,
                if (processLines orderId st lines).2.2 = [] then .Completed
                else .PartiallyFulfilled⟩] } := by
      simp only [placeOrder]
      rw [if_neg hc]
    rw [hred]
    show (processLines orderId st lines).1.stock sku
        + (reservedSum ((processLines orderId st lines).1.orders ++ [_]) sku : Int)
      = st.stock sku + (reservedSum st.orders sku : Int)
    rw [reservedSum_append, processLines_orders, processLines_stock]
    push_cast
    ring

/-- Fold a list of `placeOrder` calls (order id and lines) from a fresh
tenant state. -/
def runPlaceCalls (init : SKU → Int) (pos : List PurchaseOrder)
    (calls : List (Nat × List OrderLine)) : EngineState :=
  calls.foldl (fun st c => (placeOrder st c.1 c.2).1) ⟨init, [], [], pos⟩

/-- C1.  Against a single SKU with initial stock `N`, no sequence of
`placeOrder` calls (concurrent interleavings serialize into such
sequences, each conditional decrement being atomic) can reserve more than
`N` units in total, and `Variant.stock` of every SKU stays nonnegative
after the sequence — and, more generally, after every sequence of
operations of the system. -/
theorem no_oversell (init : SKU → Int) (pos : List PurchaseOrder)
    (sku : SKU) (N : Nat)
    (h0 : ∀ s, 0 ≤ init s) (hN : init sku = (N : Int))
    (calls : List (Nat × List OrderLine)) :
    reservedSum (runPlaceCalls init pos calls).orders sku ≤ N ∧
      (∀ s, 0 ≤ (runPlaceCalls init pos calls).stock s) ∧
      (∀ ops : List Op, ∀ s, 0 ≤ (runOps ⟨init, [], [], pos⟩ ops).stock s) := by
  have key : ∀ (calls : List (Nat × List OrderLine)) (st : EngineState),
      StockNonneg st →
      st.stock sku + (reservedSum st.orders sku : Int) = (N : Int) →
      StockNonneg (calls.foldl (fun st c => (placeOrder st c.1 c.2).1) st) ∧
        (calls.foldl (fun st c => (placeOrder st c.1 c.2).1) st).stock sku
            + (reservedSum
                (calls.foldl (fun st c => (placeOrder st c.1 c.2).1) st).orders
                sku : Int)
          = (N : Int) := by
    intro calls
    induction calls with
    | nil => intro st hn hacc; exact ⟨hn, hacc⟩
    | cons c rest ih =>
      intro st hn hacc
      refine ih (placeOrder st c.1 c.2).1
        ((placeOrder_stepOK st c.1 c.2).2 hn) ?_
      rw [placeOrder_account]
      exact hacc
  have hinit : StockNonneg ⟨init, [], [], pos⟩ := h0
  have hacc : (⟨init, [], [], pos⟩ : EngineState).stock sku
      + (reservedSum (⟨init, [], [], pos⟩ : EngineState).orders sku : Int)
      = (N : Int) := by
    show init sku + (reservedSum [] sku : Int) = (N : Int)
    rw [hN]
    simp [reservedSum]
  obtain ⟨hn, hsum⟩ := key calls ⟨init, [], [], pos⟩ hinit hacc
  refine ⟨?_, hn, ?_⟩
  · have hfinal := hn sku
    have : (reservedSum (runPlaceCalls init pos calls).orders sku : Int)
        ≤ (N : Int) := by
      have := hsum
      unfold runPlaceCalls
      omega
    exact_mod_cast this
  · intro ops s
    exact (runOps_stepOK ⟨init, [], [], pos⟩ ops).2 h0 s

/-- A concrete run for the oversell theorem: stock 2 of SKU A, three
orders asking 1, 2 and 1 units; only 2 units end up reserved. -/
theorem no_oversell_witness :
    reservedSum
        (runPlaceCalls (fun _ => 2) []
          [(1, [⟨"A", 1⟩]), (2, [⟨"A", 2⟩]), (3, [⟨"A", 1⟩])]).orders "A" ≤ 2 :=
  (no_oversell (fun _ => 2) [] "A" 2 (fun s => by norm_num) (by norm_num)
    [(1, [⟨"A", 1⟩]), (2, [⟨"A", 2⟩]), (3, [⟨"A", 1⟩])]).1

/-! ## The order state machine (C4, C5) -/

/-- C4.  The status mapping of `placeOrder`: every line's conditional
sale succeeding yields a Completed order; a mix yields PartiallyFulfilled
with the failed lines recorded as unfulfilled, each owing its full
requested quantity (a failed line reserves nothing); every line failing
commits no stock or ledger mutation, records the Order in the terminal
Cancelled status, and returns `NoStockAvailable` to the caller. -/
theorem placeOrder_status (st : EngineState) (orderId : Nat)
    (lines : List OrderLine) :
    ((processLines orderId st lines).2.2 = [] →
      placeOrder st orderId lines =
        ({ (processLines orderId st lines).1 with
           orders := (processLines orderId st lines).1.orders ++
             [⟨orderId, lines, (processLines orderId st lines).2.1, [],
               .Completed⟩] },
         .ok ⟨orderId, lines, (processLines orderId st lines).2.1, [],
           .Completed⟩)) ∧
    ((processLines orderId st lines).2.1 ≠ [] →
      (processLines orderId st lines).2.2 ≠ [] →
      placeOrder st orderId lines =
        ({ (processLines orderId st lines).1 with
           orders := (processLines orderId st lines).1.orders ++
             [⟨orderId, lines, (processLines orderId st lines).2.1,
               (processLines orderId st lines).2.2, .PartiallyFulfilled⟩] },
         .ok ⟨orderId, lines, (processLines orderId st lines).2.1,
           (processLines orderId st lines).2.2, .PartiallyFulfilled⟩)) ∧
    (lines ≠ [] → (processLines orderId st lines).2.1 = [] →
      placeOrder st orderId lines =
        ({ st with orders :=
             st.orders ++ [⟨orderId, lines, [], lines, .Cancelled⟩] },
         .error .NoStockAvailable)) := by
  refine ⟨?_, ?_, ?_⟩
  · intro hfail
    have hcond : ¬(lines ≠ [] ∧ (processLines orderId st lines).2.1 = []) := by
      rintro ⟨hl, hsucc⟩
      have hlen := processLines_length orderId lines st
      rw [hsucc, hfail] at hlen
      simp only [List.length_nil] at hlen
      exact hl (List.eq_nil_of_length_eq_zero hlen.symm)
    simp only [placeOrder]
    rw [if_neg hcond, hfail]
    simp
  · intro hsucc hfail
    have hcond : ¬(lines ≠ [] ∧ (processLines orderId st lines).2.1 = []) := by
      rintro ⟨_, h⟩
      exact hsucc h
    simp only [placeOrder]
    rw [if_neg hcond, if_neg hfail]
  · intro hl hsucc
    simp only [placeOrder]
    rw [if_pos ⟨hl, hsucc⟩]

/-- A fresh state with 2 units of every SKU, for the order witnesses. -/
def orderDemoState : EngineState := ⟨fun _ => 2, [], [], []⟩

theorem placeOrder_status_witness :
    (processLines 1 orderDemoState [⟨"A", 1⟩]).2.2 = [] ∧
    placeOrder orderDemoState 1 [⟨"A", 1⟩] =
      ({ (processLines 1 orderDemoState [⟨"A", 1⟩]).1 with
         orders := (processLines 1 orderDemoState [⟨"A", 1⟩]).1.orders ++
           [⟨1, [⟨"A", 1⟩], (processLines 1 orderDemoState [⟨"A", 1⟩]).2.1, [],
             .Completed⟩] },
       .ok ⟨1, [⟨"A", 1⟩], (processLines 1 orderDemoState [⟨"A", 1⟩]).2.1, [],
         .Completed⟩) :=
  ⟨rfl, (placeOrder_status orderDemoState 1 [⟨"A", 1⟩]).1 rfl⟩

theorem applyReturnLines_stock (orderId : Nat) (ls : List OrderLine)
    (st : EngineState) (s : SKU) :
    (applyReturnLines orderId st ls).stock s
      = st.stock s + (lineQty ls s : Int) := by
  induction ls generalizing st with
  | nil => simp [applyReturnLines, lineQty_nil]
  | cons l rest ih =>
    have hm := applyMovement_incr_ok st l.sku
      MovementType.ret (by simp) l.quantity orderId
    have hred : applyReturnLines orderId st (l :: rest)
        = applyReturnLines orderId
            { st with
              stock := setStock st.stock l.sku (st.stock l.sku + (l.quantity : Int))
              ledger := st.ledger ++ [⟨l.sku, .ret, l.quantity, orderId⟩] }
            rest := by
      simp [applyReturnLines, hm]
    rw [hred, ih, lineQty_cons]
    show setStock st.stock l.sku (st.stock l.sku + (l.quantity : Int)) s
        + (lineQty rest s : Int)
      = st.stock s + (((if l.sku = s then l.quantity else 0) + lineQty rest s : Nat) : Int)
    by_cases hs : s = l.sku
    · rw [hs, setStock_self]
      simp only [if_pos rfl]
      push_cast
      ring
    · rw [setStock_other _ _ _ hs]
      have : ¬(l.sku = s) := fun e => hs e.symm
      simp [this]

theorem applyReturnLines_ledger (orderId : Nat) (ls : List OrderLine)
    (st : EngineState) :
    (applyReturnLines orderId st ls).ledger
      = st.ledger ++ ls.map (fun l => ⟨l.sku, .ret, l.quantity, orderId⟩) := by
  induction ls generalizing st with
  | nil => simp [applyReturnLines]
  | cons l rest ih =>
    have hm := applyMovement_incr_ok st l.sku
      MovementType.ret (by simp) l.quantity orderId
    have hred : applyReturnLines orderId st (l :: rest)
        = applyReturnLines orderId
            { st with
              stock := setStock st.stock l.sku (st.stock l.sku + (l.quantity : Int))
              ledger := st.ledger ++ [⟨l.sku, .ret, l.quantity, orderId⟩] }
            rest := by
      simp [applyReturnLines, hm]
    rw [hred, ih]
    simp

theorem applyReturnLines_orders (orderId : Nat) (ls : List OrderLine)
    (st : EngineState) :
    (applyReturnLines orderId st ls).orders = st.orders ∧
      (applyReturnLines orderId st ls).purchaseOrders = st.purchaseOrders := by
  induction ls generalizing st with
  | nil => exact ⟨rfl, rfl⟩
  | cons l rest ih =>
    have hm := applyMovement_incr_ok st l.sku
      MovementType.ret (by simp) l.quantity orderId
    have hred : applyReturnLines orderId st (l :: rest)
        = applyReturnLines orderId
            { st with
              stock := setStock st.stock l.sku (st.stock l.sku + (l.quantity : Int))
              ledger := st.ledger ++ [⟨l.sku, .ret, l.quantity, orderId⟩] }
            rest := by
      simp [applyReturnLines, hm]
    rw [hred]
    exact ih _

/-- Replacing the status of the first order with a given id is visible
through `find?`. -/
theorem find?_setOrderStatus (os : List Order) (orderId : Nat) (o : Order)
    (hf : os.find? (fun x => x.id = orderId) = some o) (s : OrderStatus) :
    (setOrderStatus os orderId s).find? (fun x => x.id = orderId)
      = some { o with status := s } := by
  induction os with
  | nil => cases hf
  | cons a rest ih =>
    by_cases ha : a.id = orderId
    · rw [List.find?_cons_of_pos _ (by simp [ha])] at hf
      cases hf
      show (setOrderStatus (o :: rest) orderId s).find? (fun x => x.id = orderId)
        = some { o with status := s }
      simp only [setOrderStatus, if_pos ha]
      exact List.find?_cons_of_pos _ (by simp [ha])
    · rw [List.find?_cons_of_neg _ (by simp [ha])] at hf
      simp only [setOrderStatus, if_neg ha]
      rw [List.find?_cons_of_neg _ (by simp [ha])]
      exact ih hf

/-- C5.  `cancelOrder` succeeds exactly from Pending or
PartiallyFulfilled: it emits one compensating `return` movement per
reserved line, restoring every SKU's stock by the reserved quantity, and
sets the order's status to Cancelled.  Invoked on a Completed or
already-Cancelled order it fails with `InvalidTransition` and leaves the
entire state — stock, ledger, and the order's status — unchanged, so no
double compensation can occur. -/
theorem cancelOrder_spec (st : EngineState) (orderId : Nat) (o : Order)
    (hf : st.orders.find? (fun x => x.id = orderId) = some o) :
    ((o.status = .Pending ∨ o.status = .PartiallyFulfilled) →
      (cancelOrder st orderId).2 = .ok () ∧
      (∀ s, (cancelOrder st orderId).1.stock s
        = st.stock s + (lineQty o.reserved s : Int)) ∧
      (cancelOrder st orderId).1.ledger
        = st.ledger ++ o.reserved.map (fun l => ⟨l.sku, .ret, l.quantity, orderId⟩) ∧
      (cancelOrder st orderId).1.orders.find? (fun x => x.id = orderId)
        = some { o with status := .Cancelled } ∧
      (cancelOrder st orderId).1.purchaseOrders = st.purchaseOrders) ∧
    ((o.status = .Completed ∨ o.status = .Cancelled) →
      cancelOrder st orderId = (st, .error .InvalidTransition)) := by
  constructor
  · intro hst
    have hred : cancelOrder st orderId
        = ({ applyReturnLines orderId st o.reserved with
             orders := setOrderStatus
               (applyReturnLines orderId st o.reserved).orders orderId
               .Cancelled },
           .ok ()) := by
      rcases hst with hst | hst <;> simp [cancelOrder, hf, hst]
    rw [hred]
    refine ⟨rfl, ?_, ?_, ?_, ?_⟩
    · intro s
      exact applyReturnLines_stock orderId o.reserved st s
    · exact applyReturnLines_ledger orderId o.reserved st
    · show (setOrderStatus (applyReturnLines orderId st o.reserved).orders
          orderId .Cancelled).find? (fun x => x.id = orderId)
        = some { o with status := .Cancelled }
      rw [(applyReturnLines_orders orderId o.reserved st).1]
      exact find?_setOrderStatus st.orders orderId o hf .Cancelled
    · exact (applyReturnLines_orders orderId o.reserved st).2
  · intro hst
    rcases hst with hst | hst <;> simp [cancelOrder, hf, hst]

/-- A state holding one partially fulfilled order (1 unit of SKU A
reserved, 5 of SKU B owed), for the cancellation witness. -/
def cancelDemoState : EngineState :=
  ⟨fun _ => 1, [⟨"A", .sale, 1, 9⟩],
   [⟨9, [⟨"A", 1⟩, ⟨"B", 5⟩], [⟨"A", 1⟩], [⟨"B", 5⟩], .PartiallyFulfilled⟩], []⟩

theorem cancelOrder_spec_witness :
    (cancelOrder cancelDemoState 9).2 = .ok () ∧
    (cancelOrder cancelDemoState 9).1.stock "A"
      = cancelDemoState.stock "A" + (lineQty [⟨"A", 1⟩] "A" : Int) :=
  have h := (cancelOrder_spec cancelDemoState 9
    ⟨9, [⟨"A", 1⟩, ⟨"B", 5⟩], [⟨"A", 1⟩], [⟨"B", 5⟩], .PartiallyFulfilled⟩
    rfl).1 (Or.inr rfl)
  ⟨h.1, h.2.1 "A"⟩

/-! ## The purchase-order receipt machinery (C6) -/

/-- `itemsWF items` says every item satisfies `receivedQty ≤ orderedQty`. -/
def itemsWF (items : List PurchaseOrderItem) : Prop :=
  ∀ it ∈ items, it.receivedQty ≤ it.orderedQty

/-- `posWF pos` says every purchase order's items are well formed. -/
def posWF (pos : List PurchaseOrder) : Prop :=
  ∀ p ∈ pos, itemsWF p.items

/-- One item evolves into another by receipts: same SKU and ordered
quantity, received quantity not decreased. -/
def itemLE (a b : PurchaseOrderItem) : Prop :=
  a.sku = b.sku ∧ a.orderedQty = b.orderedQty ∧ a.receivedQty ≤ b.receivedQty

/-- Pointwise evolution of an item list. -/
def itemsLE (a b : List PurchaseOrderItem) : Prop :=
  List.Forall₂ itemLE a b

/-- Pointwise evolution of the purchase-order collection. -/
def posLE (a b : List PurchaseOrder) : Prop :=
  List.Forall₂ (fun p q => p.id = q.id ∧ itemsLE p.items q.items) a b

theorem itemsLE_refl (items : List PurchaseOrderItem) : itemsLE items items := by
  induction items with
  | nil => exact List.Forall₂.nil
  | cons it rest ih => exact List.Forall₂.cons ⟨rfl, rfl, le_refl _⟩ ih

theorem itemsLE_trans {a b c : List PurchaseOrderItem}
    (h1 : itemsLE a b) (h2 : itemsLE b c) : itemsLE a c := by
  induction h1 generalizing c with
  | nil => cases h2; exact List.Forall₂.nil
  | cons hab h1' ih =>
    cases h2 with
    | cons hbc h2' =>
      exact List.Forall₂.cons
        ⟨hab.1.trans hbc.1, hab.2.1.trans hbc.2.1, le_trans hab.2.2 hbc.2.2⟩
        (ih h2')

theorem posLE_refl (pos : List PurchaseOrder) : posLE pos pos := by
  induction pos with
  | nil => exact List.Forall₂.nil
  | cons p rest ih => exact List.Forall₂.cons ⟨rfl, itemsLE_refl _⟩ ih

theorem posLE_trans {a b c : List PurchaseOrder}
    (h1 : posLE a b) (h2 : posLE b c) : posLE a c := by
  induction h1 generalizing c with
  | nil => cases h2; exact List.Forall₂.nil
  | cons hab h1' ih =>
    cases h2 with
    | cons hbc h2' =>
      exact List.Forall₂.cons
        ⟨hab.1.trans hbc.1, itemsLE_trans hab.2 hbc.2⟩ (ih h2')

/-- A successful receipt only grows received quantities. -/
theorem receiveIntoItems_le {sku : SKU} {qty price : Nat}
    {items items' : List PurchaseOrderItem}
    (h : receiveIntoItems sku qty price items = .ok items') :
    itemsLE items items' := by
  induction items generalizing items' with
  | nil => cases h
  | cons it rest ih =>
    simp only [receiveIntoItems] at h
    by_cases hs : it.sku = sku
    · rw [if_pos hs] at h
      by_cases hq : it.receivedQty + qty ≤ it.orderedQty
      · rw [if_pos hq] at h
        cases h
        exact List.Forall₂.cons ⟨rfl, rfl, Nat.le_add_right _ _⟩ (itemsLE_refl rest)
      · rw [if_neg hq] at h
        cases h
    · rw [if_neg hs] at h
      cases hr : receiveIntoItems sku qty price rest with
      | error e => rw [hr] at h; cases h
      | ok rest' =>
        rw [hr] at h
        simp only [Except.map] at h
        cases h
        exact List.Forall₂.cons ⟨rfl, rfl, le_refl _⟩ (ih hr)

/-- A successful receipt keeps `receivedQty ≤ orderedQty` everywhere: the
updated item is freshly guarded, the rest are untouched. -/
theorem receiveIntoItems_wf {sku : SKU} {qty price : Nat}
    {items items' : List PurchaseOrderItem}
    (h : receiveIntoItems sku qty price items = .ok items')
    (hwf : itemsWF items) : itemsWF items' := by
  induction items generalizing items' with
  | nil => cases h
  | cons it rest ih =>
    simp only [receiveIntoItems] at h
    by_cases hs : it.sku = sku
    · rw [if_pos hs] at h
      by_cases hq : it.receivedQty + qty ≤ it.orderedQty
      · rw [if_pos hq] at h
        cases h
        intro x hx
        rcases List.mem_cons.1 hx with hx | hx
        · rw [hx]
          exact hq
        · exact hwf x (List.mem_cons_of_mem _ hx)
      · rw [if_neg hq] at h
        cases h
    · rw [if_neg hs] at h
      cases hr : receiveIntoItems sku qty price rest with
      | error e => rw [hr] at h; cases h
      | ok rest' =>
        rw [hr] at h
        simp only [Except.map] at h
        cases h
        intro x hx
        rcases List.mem_cons.1 hx with hx | hx
        · rw [hx]
          exact hwf it (List.mem_cons_self _ _)
        · exact ih hr (fun y hy => hwf y (List.mem_cons_of_mem _ hy)) x hx

/-- Inverting a successful receipt: the first item with the receipt's SKU
existed, was under its ordered quantity by at least `qty`, and is the one
whose `receivedQty` grew by `qty` (with the received price recorded). -/
theorem receiveIntoItems_find {sku : SKU} {qty price : Nat}
    {items items' : List PurchaseOrderItem}
    (h : receiveIntoItems sku qty price items = .ok items') :
    ∃ it, items.find? (fun i => i.sku = sku) = some it ∧
      it.receivedQty + qty ≤ it.orderedQty ∧
      items'.find? (fun i => i.sku = sku)
        = some { it with receivedQty := it.receivedQty + qty
                         receivedUnitPrice := some price } := by
  induction items generalizing items' with
  | nil => cases h
  | cons it rest ih =>
    simp only [receiveIntoItems] at h
    by_cases hs : it.sku = sku
    · rw [if_pos hs] at h
      by_cases hq : it.receivedQty + qty ≤ it.orderedQty
      · rw [if_pos hq] at h
        cases h
        refine ⟨it, List.find?_cons_of_pos _ (by simp [hs]), hq, ?_⟩
        exact List.find?_cons_of_pos _ (by simp [hs])
      · rw [if_neg hq] at h
        cases h
    · rw [if_neg hs] at h
      cases hr : receiveIntoItems sku qty price rest with
      | error e => rw [hr] at h; cases h
      | ok rest' =>
        rw [hr] at h
        simp only [Except.map] at h
        cases h
        obtain ⟨x, hx1, hx2, hx3⟩ := ih hr
        refine ⟨x, ?_, hx2, ?_⟩
        · rw [List.find?_cons_of_neg _ (by simp [hs])]
          exact hx1
        · rw [List.find?_cons_of_neg _ (by simp [hs])]
          exact hx3

/-- A receipt exceeding the ordered quantity of the first matching item
fails with `OverReceipt`. -/
theorem receiveIntoItems_overreceipt (price : Nat) {sku : SKU} {qty : Nat}
    {items : List PurchaseOrderItem} {it : PurchaseOrderItem}
    (hfind : items.find? (fun i => i.sku = sku) = some it)
    (hover : it.orderedQty < it.receivedQty + qty) :
    receiveIntoItems sku qty price items = .error .OverReceipt := by
  induction items with
  | nil => cases hfind
  | cons a rest ih =>
    by_cases hs : a.sku = sku
    · rw [List.find?_cons_of_pos _ (by simp [hs])] at hfind
      cases hfind
      simp only [receiveIntoItems, if_pos hs]
      rw [if_neg (by omega)]
    · rw [List.find?_cons_of_neg _ (by simp [hs])] at hfind
      simp only [receiveIntoItems, if_neg hs]
      rw [ih hfind]
      rfl

/-- Replacing the first purchase order with a given id is visible through
`find?`. -/
theorem find?_setPO (pos : List PurchaseOrder) (poId : Nat)
    (po : PurchaseOrder)
    (hf : pos.find? (fun p => p.id = poId) = some po)
    (items : List PurchaseOrderItem) (s : POStatus) :
    (setPO pos poId items s).find? (fun p => p.id = poId)
      = some { po with items := items, status := s } := by
  induction pos with
  | nil => cases hf
  | cons a rest ih =>
    by_cases ha : a.id = poId
    · rw [List.find?_cons_of_pos _ (by simp [ha])] at hf
      cases hf
      show (setPO (po :: rest) poId items s).find? (fun p => p.id = poId)
        = some { po with items := items, status := s }
      simp only [setPO, if_pos ha]
      exact List.find?_cons_of_pos _ (by simp [ha])
    · rw [List.find?_cons_of_neg _ (by simp [ha])] at hf
      simp only [setPO, if_neg ha]
      rw [List.find?_cons_of_neg _ (by simp [ha])]
      exact ih hf

theorem posLE_setPO {pos : List PurchaseOrder} {poId : Nat}
    {po : PurchaseOrder}
    (hf : pos.find? (fun p => p.id = poId) = some po)
    {items' : List PurchaseOrderItem} (hle : itemsLE po.items items')
    (s : POStatus) : posLE pos (setPO pos poId items' s) := by
  induction pos with
  | nil => cases hf
  | cons a rest ih =>
    by_cases ha : a.id = poId
    · rw [List.find?_cons_of_pos _ (by simp [ha])] at hf
      cases hf
      show posLE (po :: rest) (setPO (po :: rest) poId items' s)
      simp only [setPO, if_pos ha]
      exact List.Forall₂.cons ⟨rfl, hle⟩ (posLE_refl rest)
    · rw [List.find?_cons_of_neg _ (by simp [ha])] at hf
      simp only [setPO, if_neg ha]
      exact List.Forall₂.cons ⟨rfl, itemsLE_refl _⟩ (ih hf)

theorem posWF_setPO {pos : List PurchaseOrder} (hwf : posWF pos)
    (poId : Nat) {items' : List PurchaseOrderItem} (hwf' : itemsWF items')
    (s : POStatus) : posWF (setPO pos poId items' s) := by
  induction pos with
  | nil => intro p hp; cases hp
  | cons a rest ih =>
    intro p hp
    by_cases ha : a.id = poId
    · simp only [setPO, if_pos ha] at hp
      rcases List.mem_cons.1 hp with hp | hp
      · rw [hp]
        exact hwf'
      · exact hwf p (List.mem_cons_of_mem _ hp)
    · simp only [setPO, if_neg ha] at hp
      rcases List.mem_cons.1 hp with hp | hp
      · rw [hp]
        exact hwf a (List.mem_cons_self _ _)
      · exact ih (fun q hq => hwf q (List.mem_cons_of_mem _ hq)) p hp

/-- `processReceipts` leaves the purchase-order collection of the state
alone (it only threads stock and ledger through `applyMovement`). -/
theorem processReceipts_collections {poId : Nat} {rs : List Receipt}
    {st : EngineState} {items : List PurchaseOrderItem}
    {st1 : EngineState} {items1 : List PurchaseOrderItem}
    (h : processReceipts poId st items rs = .ok (st1, items1)) :
    st1.purchaseOrders = st.purchaseOrders ∧ st1.orders = st.orders := by
  induction rs generalizing st items with
  | nil =>
    simp only [processReceipts] at h
    cases h
    exact ⟨rfl, rfl⟩
  | cons r rest ih =>
    simp only [processReceipts] at h
    cases hri : receiveIntoItems r.sku r.qty r.unitPrice items with
    | error e => rw [hri] at h; cases h
    | ok items2 =>
      rw [hri] at h
      cases hm : applyMovement st r.sku .purchase r.qty poId with
      | error e => rw [hm] at h; cases h
      | ok st2 =>
        rw [hm] at h
        obtain ⟨h1, h2⟩ := ih h
        rw [h1, h2, applyMovement_ok hm]
        exact ⟨rfl, rfl⟩

/-- `processReceipts` only grows received quantities and preserves
well-formedness of the item list. -/
theorem processReceipts_le {poId : Nat} {rs : List Receipt}
    {st : EngineState} {items : List PurchaseOrderItem}
    {st1 : EngineState} {items1 : List PurchaseOrderItem}
    (h : processReceipts poId st items rs = .ok (st1, items1)) :
    itemsLE items items1 ∧ (itemsWF items → itemsWF items1) := by
  induction rs generalizing st items with
  | nil =>
    simp only [processReceipts] at h
    cases h
    exact ⟨itemsLE_refl _, id⟩
  | cons r rest ih =>
    simp only [processReceipts] at h
    cases hri : receiveIntoItems r.sku r.qty r.unitPrice items with
    | error e => rw [hri] at h; cases h
    | ok items2 =>
      rw [hri] at h
      cases hm : applyMovement st r.sku .purchase r.qty poId with
      | error e => rw [hm] at h; cases h
      | ok st2 =>
        rw [hm] at h
        obtain ⟨hle, hwf⟩ := ih h
        exact ⟨itemsLE_trans (receiveIntoItems_le hri) hle,
               fun hw => hwf (receiveIntoItems_wf hri hw)⟩

/-- One `receiveItems` call keeps the purchase orders well formed and only
grows received quantities, whatever its outcome. -/
theorem receiveItems_mono (st : EngineState) (poId : Nat)
    (receipts : List Receipt) :
    (posWF st.purchaseOrders →
      posWF (receiveItems st poId receipts).1.purchaseOrders) ∧
    posLE st.purchaseOrders (receiveItems st poId receipts).1.purchaseOrders := by
  cases hf : st.purchaseOrders.find? (fun p => p.id = poId) with
  | none =>
    have heq : (receiveItems st poId receipts).1 = st := by
      simp [receiveItems, hf]
    rw [heq]
    exact ⟨id, posLE_refl _⟩
  | some po =>
    have hmem : po ∈ st.purchaseOrders := List.mem_of_find?_eq_some hf
    cases hst : po.status
    case Sent | Confirmed =>
      cases hp : processReceipts poId st po.items receipts with
      | error e =>
        have heq : (receiveItems st poId receipts).1 = st := by
          simp [receiveItems, hf, hst, hp]
        rw [heq]
        exact ⟨id, posLE_refl _⟩
      | ok pair =>
        have heq : (receiveItems st poId receipts).1
            = { pair.1 with
                purchaseOrders := setPO pair.1.purchaseOrders poId pair.2
                  (if poFullyReceived pair.2 then POStatus.Received
                   else po.status) } := by
          simp [receiveItems, hf, hst, hp]
        have hpair : processReceipts poId st po.items receipts
            = .ok (pair.1, pair.2) := by rw [hp]
        have hcoll := (processReceipts_collections hpair).1
        obtain ⟨hle, hwf⟩ := processReceipts_le hpair
        rw [heq]
        constructor
        · intro hw
          show posWF (setPO pair.1.purchaseOrders poId pair.2 _)
          rw [hcoll]
          exact posWF_setPO hw poId (hwf (hw po hmem)) _
        · show posLE st.purchaseOrders (setPO pair.1.purchaseOrders poId pair.2 _)
          rw [hcoll]
          exact posLE_setPO hf hle _
    case Draft | Received =>
      have heq : (receiveItems st poId receipts).1 = st := by
        simp [receiveItems, hf, hst]
      rw [heq]
      exact ⟨id, posLE_refl _⟩

/-- Fold a list of `receiveItems` calls (purchase-order id and receipt
batch). -/
def runReceiveCalls (st : EngineState) (calls : List (Nat × List Receipt)) :
    EngineState :=
  calls.foldl (fun s c => (receiveItems s c.1 c.2).1) st

/-- The received quantity of the first item with a SKU on the first
purchase order with an id. -/
def firstReceived (pos : List PurchaseOrder) (poId : Nat) (sku : SKU) : Nat :=
  match pos.find? (fun p => p.id = poId) with
  | none => 0
  | some po =>
    match po.items.find? (fun it => it.sku = sku) with
    | none => 0
    | some it => it.receivedQty

theorem runReceiveCalls_mono (calls : List (Nat × List Receipt)) :
    ∀ st : EngineState, posWF st.purchaseOrders →
      posWF (runReceiveCalls st calls).purchaseOrders ∧
      posLE st.purchaseOrders (runReceiveCalls st calls).purchaseOrders := by
  induction calls with
  | nil => exact fun st h => ⟨h, posLE_refl _⟩
  | cons c rest ih =>
    intro st h
    have h1 := receiveItems_mono st c.1 c.2
    obtain ⟨hwf2, hle2⟩ := ih ((receiveItems st c.1 c.2).1) (h1.1 h)
    exact ⟨hwf2, posLE_trans h1.2 hle2⟩

/-- Inverting a successful single-receipt call: the purchase order was
found, the receipt updated its items, the `purchase` movement went
through, and the final state is the movement's state with the updated
purchase order stored back (under some status). -/
theorem receiveItems_single_ok {st : EngineState} {poId : Nat} {r : Receipt}
    {st1 : EngineState}
    (h : receiveItems st poId [r] = (st1, .ok ())) :
    ∃ po items2 st2 ns,
      st.purchaseOrders.find? (fun p => p.id = poId) = some po ∧
      receiveIntoItems r.sku r.qty r.unitPrice po.items = .ok items2 ∧
      applyMovement st r.sku .purchase r.qty poId = .ok st2 ∧
      st1 = { st2 with
              purchaseOrders := setPO st2.purchaseOrders poId items2 ns } := by
  cases hf : st.purchaseOrders.find? (fun p => p.id = poId) with
  | none =>
    simp only [receiveItems, hf] at h
    simp at h
  | some po =>
    cases hstt : po.status
    case Draft =>
      simp only [receiveItems, hf, hstt] at h
      simp at h
    case Received =>
      simp only [receiveItems, hf, hstt] at h
      simp at h
    case Sent | Confirmed =>
      cases hp : processReceipts poId st po.items [r] with
      | error e =>
        simp only [receiveItems, hf, hstt, hp] at h
        simp at h
      | ok pair =>
        simp only [receiveItems, hf, hstt, hp] at h
        injection h with h1 h2
        simp only [processReceipts] at hp
        cases hri : receiveIntoItems r.sku r.qty r.unitPrice po.items with
        | error e => rw [hri] at hp; cases hp
        | ok items2 =>
          rw [hri] at hp
          cases hm : applyMovement st r.sku .purchase r.qty poId with
          | error e => rw [hm] at hp; cases hp
          | ok st2 =>
            rw [hm] at hp
            simp only [processReceipts] at hp
            have hpair : pair = (st2, items2) := by cases hp; rfl
            rw [hpair] at h1
            exact ⟨po, items2, st2, _, rfl, hri, rfl, h1.symm⟩

/-- C6.  Receipts are monotonic and bounded: starting from purchase
orders satisfying `receivedQty ≤ orderedQty`, any sequence of
`receiveItems` calls keeps that bound and never decreases any
`receivedQty`.  A single receipt whose quantity would push the first
matching item beyond its ordered quantity fails with `OverReceipt` and
returns the state untouched (stock and received quantities unchanged),
while a successful receipt grows that item's `receivedQty` by exactly
`qty` and appends one `purchase`-type ledger movement of `+qty` whose
stock increment commits in the same scope. -/
theorem receive_monotonic_bounded (st : EngineState) :
    (posWF st.purchaseOrders →
      ∀ calls : List (Nat × List Receipt),
        posWF (runReceiveCalls st calls).purchaseOrders ∧
        posLE st.purchaseOrders (runReceiveCalls st calls).purchaseOrders) ∧
    (∀ (poId : Nat) (r : Receipt) (po : PurchaseOrder)
        (it : PurchaseOrderItem),
      st.purchaseOrders.find? (fun p => p.id = poId) = some po →
      (po.status = .Sent ∨ po.status = .Confirmed) →
      po.items.find? (fun i => i.sku = r.sku) = some it →
      it.orderedQty < it.receivedQty + r.qty →
      receiveItems st poId [r] = (st, .error .OverReceipt)) ∧
    (∀ (poId : Nat) (r : Receipt) (st1 : EngineState),
      receiveItems st poId [r] = (st1, .ok ()) →
      st1.ledger = st.ledger ++ [⟨r.sku, .purchase, r.qty, poId⟩] ∧
      st1.stock r.sku = st.stock r.sku + (r.qty : Int) ∧
      firstReceived st1.purchaseOrders poId r.sku
        = firstReceived st.purchaseOrders poId r.sku + r.qty) := by
  refine ⟨fun h calls => runReceiveCalls_mono calls st h, ?_, ?_⟩
  · intro poId r po it hf hst hfind hover
    have hri := receiveIntoItems_overreceipt r.unitPrice hfind hover
    have hp : processReceipts poId st po.items [r] = .error .OverReceipt := by
      simp only [processReceipts, hri]
    rcases hst with hst | hst <;> simp [receiveItems, hf, hst, hp]
  · intro poId r st1 h
    obtain ⟨po, items2, st2, ns, hf, hri, hm, hst1⟩ := receiveItems_single_ok h
    have hok := applyMovement_ok hm
    obtain ⟨x, hx1, hx2, hx3⟩ := receiveIntoItems_find hri
    refine ⟨?_, ?_, ?_⟩
    · rw [hst1]
      show st2.ledger = st.ledger ++ [⟨r.sku, .purchase, r.qty, poId⟩]
      rw [hok]
    · rw [hst1]
      show st2.stock r.sku = st.stock r.sku + (r.qty : Int)
      rw [hok]
      show setStock st.stock r.sku
          (st.stock r.sku + mvDelta ⟨r.sku, .purchase, r.qty, poId⟩) r.sku
        = st.stock r.sku + (r.qty : Int)
      rw [setStock_self]
      simp [mvDelta]
    · rw [hst1]
      have hpos2 : st2.purchaseOrders = st.purchaseOrders := by
        rw [hok]
      show firstReceived (setPO st2.purchaseOrders poId items2 ns) poId r.sku
        = firstReceived st.purchaseOrders poId r.sku + r.qty
      rw [hpos2]
      have hfound := find?_setPO st.purchaseOrders poId po hf items2 ns
      simp only [firstReceived, hfound, hf, hx1, hx3]

/-- A purchase order of 100 units of SKU B with 70 already received:
receiving another 40 must fail with `OverReceipt`, leaving the state
untouched (spec section 8 scenario). -/
def receiveDemoState : EngineState :=
  ⟨fun _ => 70, [⟨"B", .purchase, 70, 7⟩], [],
   [⟨7, .Confirmed, [⟨"B", 100, 70, 10, some 9⟩]⟩]⟩

theorem receive_monotonic_bounded_witness :
    receiveItems receiveDemoState 7 [⟨"B", 40, 9⟩]
      = (receiveDemoState, .error .OverReceipt) :=
  (receive_monotonic_bounded receiveDemoState).2.1 7 ⟨"B", 40, 9⟩
    ⟨7, .Confirmed, [⟨"B", 100, 70, 10, some 9⟩]⟩
    ⟨"B", 100, 70, 10, some 9⟩ rfl (Or.inr rfl) rfl (by norm_num)

end Inventory
